import Mathlib

/-
Verification development for the dynadapt repository (adaptive loudness
averaging).  The repository holds two python scripts:

  dyn_adapt4.py : the refined variant (max-gain clamp, optional phase 2);
  dyn_adapt2.py : the simple variant (no clamp, single pass).

Audio samples are 64-bit floats; they are modelled as real numbers.  A frame
of a stereo buffer is a pair of reals.  The BS.1770 loudness meter and the
gain application routine of pyloudnorm are external collaborators: the meter
is a parameter of every pipeline definition, the gain application is embedded
from its documented contract (scale every sample by 10 raised to the power
gain over 20).
-/

/-- A stereo sample frame: one 64-bit float amplitude per channel,
modelled over the reals. -/
abbrev Frame : Type := ℝ × ℝ

/-- Outcome of the channel-layout check that guards the pipeline. -/
inductive ChannelOutcome where
  | proceed
  | rejectMulti
  | rejectMono
  deriving DecidableEq, Repr

/-- Modelled from the external soundfile contract: reading a c-channel file
of n frames with the always-2d option yields a 2-dimensional array of shape
(n, c), so the shape list always has two entries. -/
def soundfileShape (frames channels : ℕ) : List ℕ := [frames, channels]

/-- The channel-layout check of dyn_adapt4.py lines 96-103 (dyn_adapt2.py
lines 80-87 is identical): if the shape has more than one dimension, read the
channel count from the second entry and reject only counts above two;
otherwise report a mono file and stop. -/
def channel_check (shape : List ℕ) : ChannelOutcome :=
  if 1 < shape.length then
    if 2 < shape.getD 1 0 then ChannelOutcome.rejectMulti
    else ChannelOutcome.proceed
  else ChannelOutcome.rejectMono

/-- Block size in samples, dyn_adapt4.py line 108: division times samplerate. -/
def blocksizeOf (division samplerate : ℕ) : ℕ := division * samplerate

/-- Crossfade size in samples, dyn_adapt4.py line 112: the integer part of
blocksize times the crossfade ratio. -/
noncomputable def fadesizeOf (bs : ℕ) (x : ℝ) : ℕ := (Int.floor ((bs : ℝ) * x)).toNat

/-- Number of processed blocks, dyn_adapt4.py line 133: the truncated
quotient of the sample count by the block size. -/
def block_count (samples blocksize : ℕ) : ℕ := samples / blocksize

/-- The window of block idx, dyn_adapt4.py lines 140-151: the start index is
idx times blocksize minus fadesize, clamped at zero (truncated subtraction
performs the clamp of line 145, since fadesize is below blocksize); the stop
index is the unclamped start plus blocksize plus fadesize, in which fadesize
cancels; the last window instead runs to the end of the buffer. -/
def windowFor (N bs fs bc idx : ℕ) : ℕ × ℕ :=
  (idx * bs - fs, if idx = bc - 1 then N else idx * bs + bs)

/-- The full block plan: one window per processed block. -/
def blockPlan (N bs fs : ℕ) : List (ℕ × ℕ) :=
  (List.range (block_count N bs)).map (windowFor N bs fs (block_count N bs))

/-- Output file naming, dyn_adapt4.py lines 304-306 (dyn_adapt2.py lines
185-187 identical): drop the last four characters of the input name and
append the new suffix.  A python slice that stops at minus four keeps
max(0, length - 4) characters, which truncated subtraction reproduces. -/
def new_name (filename : List Char) : List Char :=
  filename.take (filename.length - 4) ++ ("_new.wav".toList)

/-- The naming rule in the words of the specification: replace the extension
(everything from the final dot onward) by the new suffix. -/
def replaceExtSpec (filename : List Char) : List Char :=
  filename.take (filename.length - 1 - filename.reverse.indexOf '.') ++ ("_new.wav".toList)

/-- The config validation keeps the fade strictly inside a block: a crossfade
ratio strictly between zero and one makes fadesize smaller than blocksize. -/
theorem fadesizeOf_lt (bs : ℕ) (x : ℝ) (hbs : 0 < bs) (hx1 : x < 1) :
    fadesizeOf bs x < bs := by
  have hb : (0 : ℝ) < (bs : ℝ) := by exact_mod_cast hbs
  have h : ((bs : ℝ) * x) < (bs : ℝ) := by nlinarith
  have hfloor : Int.floor ((bs : ℝ) * x) < (bs : ℤ) := by
    exact_mod_cast Int.floor_lt.mpr (by exact_mod_cast h)
  unfold fadesizeOf
  omega

/-- A measured integrated loudness as the BS.1770 meter reports it in a
64-bit float: either a finite value or minus infinity (block below the
absolute gate). -/
inductive LUFS where
  | neginf
  | fin (x : ℝ)

/-- The max-gain clamp of dyn_adapt4.py lines 162-166 on a finite measured
loudness: when the gap between target and measurement exceeds the max gain,
the loudness handed to the normalize call is replaced by the target plus or
minus the max gain, whichever is nearer the measurement. -/
noncomputable def clamped_loudness (m t g : ℝ) : ℝ :=
  if g < |t - m| then (if t < m then t + g else t - g) else m

/-- The same clamp on a possibly minus-infinite measurement.  The gap of a
minus-infinite loudness to a finite target is plus infinity, which exceeds
every finite max gain, and minus infinity is below the target, so the code
takes the lower clamp branch there. -/
noncomputable def clamped_loudnessL : LUFS → ℝ → ℝ → ℝ
  | LUFS.neginf, t, g => t - g
  | LUFS.fin x, t, g => clamped_loudness x t g

/-- The gain in dB that the normalize call applies to a block, dyn_adapt4.py
line 168: target loudness minus the (clamped) input loudness. -/
noncomputable def appliedGain (m t g : ℝ) : ℝ := t - clamped_loudness m t g

/-- The applied gain for a possibly minus-infinite measurement. -/
noncomputable def appliedGainL (m : LUFS) (t g : ℝ) : ℝ := t - clamped_loudnessL m t g

/-- Modelled from the external pyloudnorm contract: normalize.loudness
scales every sample of the block by ten raised to the power of the loudness
difference (target minus input) over twenty. -/
noncomputable def normalize_loudness (data : List Frame) (input target : ℝ) : List Frame :=
  data.map (fun s => ((10 : ℝ) ^ ((target - input) / 20)) • s)

/-- Gain correction of one block of the refined variant, dyn_adapt4.py lines
155-168: clamp the measured loudness, then normalize with the clamped value
as input loudness.  The measurement itself is a parameter. -/
noncomputable def gainCorrect (m t g : ℝ) (sub : List Frame) : List Frame :=
  normalize_loudness sub (clamped_loudness m t g) t

/-- Gain correction with a possibly minus-infinite measurement. -/
noncomputable def gainCorrectL (m : LUFS) (t g : ℝ) (sub : List Frame) : List Frame :=
  normalize_loudness sub (clamped_loudnessL m t g) t

/-- Shared helper: for a minus-infinite measurement the correction scales
the block by ten to the max gain over twenty. -/
theorem gainCorrectL_neginf (t g : ℝ) (sub : List Frame) :
    gainCorrectL LUFS.neginf t g sub = sub.map (fun s => ((10 : ℝ) ^ (g / 20)) • s) := by
  unfold gainCorrectL normalize_loudness clamped_loudnessL
  rw [show t - (t - g) = g by ring]

/-- C2: contrary to the claim that one-channel input is reported and the run
terminates, the channel check lets a mono file proceed into the pipeline:
under the always-2d read a mono file has shape (frames, 1), the shape is
two-dimensional, and only channel counts above two are rejected, so the
dedicated mono-rejection branch is unreachable.  Counts above two are
rejected as the claim states. -/
theorem channel_check_mono_proceeds :
    channel_check (soundfileShape 1000 1) = ChannelOutcome.proceed ∧
    channel_check (soundfileShape 1000 4) = ChannelOutcome.rejectMulti := by
  exact ⟨rfl, rfl⟩

/-- C3 counterexample: with buffer length 10 and block size 4 (an even
division of 4 seconds at samplerate 1, crossfade ratio one half giving fade
size 2) the planner makes 2 windows, not the ceiling of 10 over 4, which is
3. -/
theorem blockPlan_count_not_ceil :
    (blockPlan 10 (blocksizeOf 4 1) 2).length ≠ (10 + blocksizeOf 4 1 - 1) / blocksizeOf 4 1 := by
  decide

/-- C3 amended: the planner produces exactly floor(N / blocksize) windows,
the truncated quotient rather than the ceiling, and whenever at least one
window exists the last window runs exactly to the end of the buffer,
absorbing any remainder samples. -/
theorem blockPlan_floor_count_last_stop (N bs fs : ℕ) (hbs : 0 < bs) (hN : bs ≤ N) :
    (blockPlan N bs fs).length = N / bs ∧
    ((blockPlan N bs fs).getD (N / bs - 1) (0, 0)).2 = N := by
  have hbc : 0 < N / bs := Nat.div_pos hN hbs
  constructor
  · simp [blockPlan, block_count]
  · unfold blockPlan block_count
    rw [List.getD_eq_getElem?_getD, List.getElem?_map,
      List.getElem?_range (by omega : N / bs - 1 < N / bs)]
    simp [windowFor]

/-- Witness for the amended C3 statement at length 10 and block size 4. -/
theorem blockPlan_floor_count_last_stop_witness :
    (blockPlan 10 4 2).length = 10 / 4 ∧ ((blockPlan 10 4 2).getD (10 / 4 - 1) (0, 0)).2 = 10 :=
  blockPlan_floor_count_last_stop 10 4 2 (by decide) (by decide)

/-- C9 counterexample: an input name with a five-character extension.  The
code keeps all but the last four characters, producing song._new.wav, while
replacing the extension would produce song_new.wav. -/
theorem new_name_not_extension_replacement :
    new_name ("song.flac".toList) ≠ replaceExtSpec ("song.flac".toList) := by
  decide

/-- C9 amended: the code removes exactly the final four characters of the
input name and appends the new suffix, so the extension is replaced
correctly precisely when the extension has four characters, such as .wav. -/
theorem new_name_four_char_ext (stem ext : List Char) (h : ext.length = 4) :
    new_name (stem ++ ext) = stem ++ ("_new.wav".toList) := by
  unfold new_name
  rw [List.length_append, h, Nat.add_sub_cancel, List.take_left]

/-- Witness for the amended C9 statement on song.wav. -/
theorem new_name_four_char_ext_witness :
    new_name ("song".toList ++ ".wav".toList) = "song".toList ++ ("_new.wav".toList) :=
  new_name_four_char_ext ("song".toList) (".wav".toList) (by decide)

/-- C5: for a finite measured loudness the applied gain equals the desired
gain, target minus measured, when its magnitude is within the max gain, and
equals exactly the signed max gain otherwise; and the correction multiplies
every sample of the block by the single linear factor ten to the applied
gain over twenty. -/
theorem gain_clamp_formula (m t g : ℝ) (block : List Frame) (hg : 0 ≤ g) :
    ((|t - m| ≤ g → appliedGain m t g = t - m) ∧
     (g < |t - m| → appliedGain m t g = Real.sign (t - m) * g)) ∧
    gainCorrect m t g block =
      block.map (fun s => ((10 : ℝ) ^ (appliedGain m t g / 20)) • s) := by
  refine ⟨⟨?_, ?_⟩, ?_⟩
  · intro h
    unfold appliedGain clamped_loudness
    rw [if_neg (not_lt.mpr h)]
  · intro h
    unfold appliedGain clamped_loudness
    rw [if_pos h]
    rcases lt_trichotomy t m with hlt | heq | hgt
    · rw [if_pos hlt, Real.sign_of_neg (by linarith)]
      ring
    · exfalso
      rw [heq] at h
      simp at h
      linarith
    · rw [if_neg (by linarith), Real.sign_of_pos (by linarith)]
      ring
  · rfl

/-- Witness for C5 at measured -30 LUFS, target -16 LUFS, max gain 2 dB. -/
theorem gain_clamp_formula_witness :
    ((|(-16 : ℝ) - (-30)| ≤ 2 → appliedGain (-30) (-16) 2 = (-16) - (-30)) ∧
     (2 < |(-16 : ℝ) - (-30)| → appliedGain (-30) (-16) 2 = Real.sign ((-16) - (-30)) * 2)) ∧
    gainCorrect (-30) (-16) 2 [((1 : ℝ), (1 : ℝ))] =
      [((1 : ℝ), (1 : ℝ))].map (fun s => ((10 : ℝ) ^ (appliedGain (-30) (-16) 2 / 20)) • s) :=
  gain_clamp_formula (-30) (-16) 2 [((1 : ℝ), (1 : ℝ))] (by norm_num)

/-- Shared helper: the applied gain in closed form, as the desired gain
clamped into the interval from minus max gain to max gain. -/
theorem appliedGain_eq_clamp (m t g : ℝ) (hg : 0 ≤ g) :
    appliedGain m t g = max (-g) (min g (t - m)) := by
  unfold appliedGain clamped_loudness
  split_ifs with h1 h2
  · rcases lt_abs.mp h1 with h3 | h3
    · linarith
    · rw [min_eq_right (by linarith), max_eq_left (by linarith)]
      ring
  · rcases lt_abs.mp h1 with h3 | h3
    · rw [min_eq_left (by linarith), max_eq_right (by linarith)]
      ring
    · linarith
  · rw [not_lt] at h1
    rcases abs_le.mp h1 with ⟨ha, hb⟩
    rw [min_eq_right hb, max_eq_right (by linarith)]

/-- C8: with target loudness and max gain fixed, the applied gain is a
non-increasing function of the measured block loudness: the louder block
never receives a larger gain than the quieter one. -/
theorem appliedGain_antitone (t g m1 m2 : ℝ) (hg : 0 ≤ g) (hm : m1 ≤ m2) :
    appliedGain m2 t g ≤ appliedGain m1 t g := by
  rw [appliedGain_eq_clamp m1 t g hg, appliedGain_eq_clamp m2 t g hg]
  exact max_le_max le_rfl (min_le_min le_rfl (by linarith))

/-- Witness for C8 at target -16 LUFS, max gain 2 dB, measurements -30 and
-20 LUFS. -/
theorem appliedGain_antitone_witness :
    appliedGain (-20) (-16) 2 ≤ appliedGain (-30) (-16) 2 :=
  appliedGain_antitone (-16) 2 (-30) (-20) (by norm_num) (by norm_num)

/-- C6 counterexample: a sub-gate block that is quiet but not all-zero (one
frame of amplitude one hundredth, measured loudness minus infinity) is NOT
left unmodified by the gain correction: the clamp turns the infinite gap
into the max gain of 2 dB and the samples are scaled by ten to the tenth. -/
theorem silent_block_modified :
    gainCorrectL LUFS.neginf (-16) 2 [((1 / 100 : ℝ), 0)] ≠ [((1 / 100 : ℝ), 0)] := by
  rw [gainCorrectL_neginf]
  intro h
  have h2 := congrArg (fun l : List Frame => (l.getD 0 0).1) h
  simp only [List.map_cons, List.map_nil, List.getD_cons_zero, Prod.smul_fst, smul_eq_mul] at h2
  have hfac : (1 : ℝ) < (10 : ℝ) ^ ((2 : ℝ) / 20) := by
    rw [show (1 : ℝ) = (10 : ℝ) ^ (0 : ℝ) from (Real.rpow_zero 10).symm]
    exact (Real.rpow_lt_rpow_left_iff (by norm_num)).mpr (by norm_num)
  nlinarith [h2, hfac]

/-- C6 amended: a block whose measured loudness is minus infinity is not
exempted from correction; the clamp derives exactly the positive max gain
from the infinite gap, so every sample is multiplied by ten to the max gain
over twenty.  Only an all-zero block comes out numerically unchanged,
because scaling zero yields zero. -/
theorem silent_block_clamped_gain (t g : ℝ) (n : ℕ) (sub : List Frame) :
    appliedGainL LUFS.neginf t g = g ∧
    gainCorrectL LUFS.neginf t g sub = sub.map (fun s => ((10 : ℝ) ^ (g / 20)) • s) ∧
    gainCorrectL LUFS.neginf t g (List.replicate n (0 : Frame)) = List.replicate n 0 := by
  refine ⟨by unfold appliedGainL clamped_loudnessL; ring, gainCorrectL_neginf t g sub, ?_⟩
  rw [gainCorrectL_neginf, List.map_replicate, smul_zero]

/-- The crossfade ramp weight at offset j, dyn_adapt4.py line 177: j times
the reciprocal of fadesize. -/
noncomputable def rampWeight (fs j : ℕ) : ℝ := (j : ℝ) * (1 / (fs : ℝ))

/-- The crossfade of dyn_adapt4.py lines 175-181 (dyn_adapt2.py lines
148-154 is the identical text): position blocksize - fadesize + j of the
held previous block is replaced, per channel, by the old value weighted one
minus ramp plus the head sample of the current block weighted ramp.  Each
position is written once and read only in its own iteration, so this batch
description equals the sequential loop.  In every state the loop reaches,
the held block has exactly blocksize samples. -/
noncomputable def blendTail (bs fs : ℕ) (prev cur : List Frame) : List Frame :=
  prev.take (bs - fs) ++
    ((List.range fs).map (fun j =>
      (1 - rampWeight fs j) • prev.getD (bs - fs + j) 0 +
        rampWeight fs j • cur.getD j 0) ++
    prev.drop bs)

/-- The slice the loop takes for block idx, dyn_adapt4.py lines 140-151.
The start index is idx blocks in, pulled back by fadesize and clamped at
zero (line 145); truncated subtraction performs the clamp, because fadesize
is below blocksize and hence below idx times blocksize for positive idx.
A non-final block is sliced from start to stop where stop is the unclamped
start plus blocksize plus fadesize, so the slice length is stop minus the
clamped start; the final block runs to the end of the buffer. -/
def subFor (audio : List Frame) (bs fs bc idx : ℕ) : List Frame :=
  if idx = bc - 1 then audio.drop (idx * bs - fs)
  else (audio.drop (idx * bs - fs)).take ((idx * bs + bs) - (idx * bs - fs))

/-- One iteration of the refined phase loop, dyn_adapt4.py lines 135-194,
acting on the pair (output so far, held previous block): slice, correct
(the measurement is supplied by the meter parameter), and for every block
after the first blend into the tail of the held block, flush the held block
to the output and trim the fade head off the current block; the first block
is only held. -/
noncomputable def stepBlock (meter : List Frame → ℝ) (t g : ℝ) (bs fs bc : ℕ)
    (audio : List Frame) (s : List Frame × List Frame) (idx : ℕ) :
    List Frame × List Frame :=
  let sub := subFor audio bs fs bc idx
  let corrected := gainCorrect (meter sub) t g sub
  if 0 < idx then
    (s.1 ++ blendTail bs fs s.2 corrected, corrected.drop fs)
  else
    (s.1, corrected)

/-- One full phase pass of the refined variant, dyn_adapt4.py lines 133-198:
fold the block loop over all block indices starting from empty buffers, then
flush the held block. -/
noncomputable def phaseRun (meter : List Frame → ℝ) (t g : ℝ) (bs fs : ℕ)
    (audio : List Frame) : List Frame :=
  let bc := block_count audio.length bs
  let s := (List.range bc).foldl (stepBlock meter t g bs fs bc audio) ([], [])
  s.1 ++ s.2

/-- One iteration of the phase-two loop, dyn_adapt4.py lines 218-277: a
literal copy of the phase-one body, operating on the shifted buffer. -/
noncomputable def phase2Step (meter : List Frame → ℝ) (t g : ℝ) (bs fs bc : ℕ)
    (audio : List Frame) (s : List Frame × List Frame) (idx : ℕ) :
    List Frame × List Frame :=
  let sub := subFor audio bs fs bc idx
  let corrected := gainCorrect (meter sub) t g sub
  if 0 < idx then
    (s.1 ++ blendTail bs fs s.2 corrected, corrected.drop fs)
  else
    (s.1, corrected)

/-- The phase-two pass, dyn_adapt4.py lines 216-281.  The script does not
reinitialize the mutable prev_audio between the phases, so the copied loop
starts with prev_audio still holding the last block the phase-one loop held;
that carried value is the prev0 parameter.  When the shifted buffer is
shorter than one block the loop body never runs, prev_audio is never
reassigned, and line 281 appends the stale held block, so the pass returns
prev0 itself.  When at least one block exists, the first iteration
overwrites prev_audio without reading it, so prev0 is then irrelevant. -/
noncomputable def phase2Run (meter : List Frame → ℝ) (t g : ℝ) (bs fs : ℕ)
    (prev0 : List Frame) (audio : List Frame) : List Frame :=
  let bc := block_count audio.length bs
  let s := (List.range bc).foldl (phase2Step meter t g bs fs bc audio) ([], prev0)
  s.1 ++ s.2

/-- The final fold state of the phase-one loop: the flushed output so far
together with the block prev_audio still holds when the loop ends (the pass
result of dyn_adapt4.py line 198 is the first component followed by the
second). -/
noncomputable def phaseState (meter : List Frame → ℝ) (t g : ℝ) (bs fs : ℕ)
    (audio : List Frame) : List Frame × List Frame :=
  (List.range (block_count audio.length bs)).foldl
    (stepBlock meter t g bs fs (block_count audio.length bs) audio) ([], [])

/-- The two-phase composition of dyn_adapt4.py lines 133-287 with phase two
enabled: run phase one on the buffer, chop half a block off the start of the
phase-one output (line 213), run the phase-two loop on that, carrying the
still-live prev_audio of the phase-one loop into it, and prepend the
retained first half block of the phase-one output (line 287). -/
noncomputable def dualPhase (meter : List Frame → ℝ) (t g : ℝ) (bs fs : ℕ)
    (audio : List Frame) : List Frame :=
  let p1 := phaseRun meter t g bs fs audio
  let p2 := phase2Run meter t g bs fs (phaseState meter t g bs fs audio).2 (p1.drop (bs / 2))
  p1.take (bs / 2) ++ p2

/-- The block slice of the simple variant, dyn_adapt2.py lines 121-132: the
same computation as in the refined variant. -/
def subFor2 (audio : List Frame) (bs fs dv idx : ℕ) : List Frame :=
  if idx = dv - 1 then audio.drop (idx * bs - fs)
  else (audio.drop (idx * bs - fs)).take ((idx * bs + bs) - (idx * bs - fs))

/-- Gain correction of the simple variant, dyn_adapt2.py lines 136-140: the
measured loudness goes to the normalize call without any clamp. -/
noncomputable def gainCorrect2 (m t : ℝ) (sub : List Frame) : List Frame :=
  normalize_loudness sub m t

/-- One iteration of the block loop of the simple variant, dyn_adapt2.py lines
117-167. -/
noncomputable def stepBlock2 (meter : List Frame → ℝ) (t : ℝ) (bs fs dv : ℕ)
    (audio : List Frame) (s : List Frame × List Frame) (idx : ℕ) :
    List Frame × List Frame :=
  let sub := subFor2 audio bs fs dv idx
  let corrected := gainCorrect2 (meter sub) t sub
  if 0 < idx then
    (s.1 ++ blendTail bs fs s.2 corrected, corrected.drop fs)
  else
    (s.1, corrected)

/-- The full block loop of the simple variant, dyn_adapt2.py lines 92-171:
division is recomputed on line 94 as the truncated quotient of the sample
count by blocksize, and the loop runs over exactly that many blocks. -/
noncomputable def blockLoop2 (meter : List Frame → ℝ) (t : ℝ) (bs fs : ℕ)
    (audio : List Frame) : List Frame :=
  let dv := block_count audio.length bs
  let s := (List.range dv).foldl (stepBlock2 meter t bs fs dv audio) ([], [])
  s.1 ++ s.2

/-- Shared helper: the value the crossfade leaves at offset j of the blend
region. -/
theorem blendTail_getD (bs fs : ℕ) (prev cur : List Frame) (j : ℕ)
    (hj : j < fs) (hp : bs ≤ prev.length) :
    (blendTail bs fs prev cur).getD (bs - fs + j) 0 =
      (1 - rampWeight fs j) • prev.getD (bs - fs + j) 0 + rampWeight fs j • cur.getD j 0 := by
  unfold blendTail
  have htake : (prev.take (bs - fs)).length = bs - fs := by
    rw [List.length_take]
    omega
  rw [List.getD_append_right _ _ _ _ (by omega), htake,
    show bs - fs + j - (bs - fs) = j by omega,
    List.getD_append _ _ _ _ (by simpa using hj),
    List.getD_eq_getElem _ _ (by simpa using hj)]
  simp

/-- Shared helper: a convex combination with weight between zero and one
stays inside the interval spanned by its endpoints. -/
theorem blend_bounds (w a b : ℝ) (h0 : 0 ≤ w) (h1 : w ≤ 1) :
    min a b ≤ (1 - w) * a + w * b ∧ (1 - w) * a + w * b ≤ max a b := by
  constructor
  · rcases le_total a b with h | h
    · rw [min_eq_left h]
      nlinarith
    · rw [min_eq_right h]
      nlinarith
  · rcases le_total a b with h | h
    · rw [max_eq_right h]
      nlinarith
    · rw [max_eq_left h]
      nlinarith

/-- Shared helper: the ramp weight lies in the unit interval. -/
theorem rampWeight_mem (fs j : ℕ) (hj : j < fs) :
    0 ≤ rampWeight fs j ∧ rampWeight fs j ≤ 1 := by
  have hfs0 : 0 < fs := by omega
  have hfs : (0 : ℝ) < (fs : ℝ) := by exact_mod_cast hfs0
  constructor
  · exact mul_nonneg (by positivity) (by positivity)
  · rw [rampWeight, mul_one_div]
    exact (div_le_one hfs).mpr (by exact_mod_cast le_of_lt hj)

/-- C7: for every block after the first and every offset j below fadesize,
the crossfade writes exactly the linear blend of the old tail sample and the
head sample of the current block, independently per channel; the blended
sample stays, in each channel, inside the closed interval spanned by the two
pre-blend values; the ramp weight is strictly increasing in j; and the block
at index zero is never blended: the first loop iteration only holds its
corrected block and leaves the output untouched. -/
theorem crossfade_blend (bs fs : ℕ) (prev cur : List Frame) (j : ℕ)
    (hj : j < fs) (hfs : fs ≤ bs) (hp : bs ≤ prev.length) :
    ((blendTail bs fs prev cur).getD (bs - fs + j) 0 =
      (1 - rampWeight fs j) • prev.getD (bs - fs + j) 0 + rampWeight fs j • cur.getD j 0) ∧
    (min (prev.getD (bs - fs + j) 0).1 (cur.getD j 0).1 ≤
        ((blendTail bs fs prev cur).getD (bs - fs + j) 0).1 ∧
      ((blendTail bs fs prev cur).getD (bs - fs + j) 0).1 ≤
        max (prev.getD (bs - fs + j) 0).1 (cur.getD j 0).1 ∧
      min (prev.getD (bs - fs + j) 0).2 (cur.getD j 0).2 ≤
        ((blendTail bs fs prev cur).getD (bs - fs + j) 0).2 ∧
      ((blendTail bs fs prev cur).getD (bs - fs + j) 0).2 ≤
        max (prev.getD (bs - fs + j) 0).2 (cur.getD j 0).2) ∧
    (∀ j1 j2 : ℕ, j1 < j2 → j2 < fs → rampWeight fs j1 < rampWeight fs j2) ∧
    (∀ (meter : List Frame → ℝ) (t g : ℝ) (bc : ℕ) (audio : List Frame)
        (s : List Frame × List Frame),
      stepBlock meter t g bs fs bc audio s 0 =
        (s.1, gainCorrect (meter (subFor audio bs fs bc 0)) t g (subFor audio bs fs bc 0))) := by
  have hget := blendTail_getD bs fs prev cur j hj hp
  have hw := rampWeight_mem fs j hj
  refine ⟨hget, ?_, ?_, ?_⟩
  · rw [hget]
    have h1 := blend_bounds (rampWeight fs j) (prev.getD (bs - fs + j) 0).1 (cur.getD j 0).1
      hw.1 hw.2
    have h2 := blend_bounds (rampWeight fs j) (prev.getD (bs - fs + j) 0).2 (cur.getD j 0).2
      hw.1 hw.2
    simp only [Prod.fst_add, Prod.snd_add, Prod.smul_fst, Prod.smul_snd, smul_eq_mul]
    exact ⟨h1.1, h1.2, h2.1, h2.2⟩
  · intro j1 j2 h12 h2f
    have hfs0 : (0 : ℝ) < (fs : ℝ) := by
      have : 0 < fs := by omega
      exact_mod_cast this
    unfold rampWeight
    have : (j1 : ℝ) < (j2 : ℝ) := by exact_mod_cast h12
    exact mul_lt_mul_of_pos_right this (by positivity)
  · intro meter t g bc audio s
    simp [stepBlock]

/-- Witness for C7 with block size 2, fade size 1, a held block of two
frames and a current block of one frame, at offset 0. -/
theorem crossfade_blend_witness :
    ((blendTail 2 1 [((0 : ℝ), (0 : ℝ)), ((4 : ℝ), (4 : ℝ))] [((2 : ℝ), (2 : ℝ))]).getD (2 - 1 + 0) 0 =
      (1 - rampWeight 1 0) • ([((0 : ℝ), (0 : ℝ)), ((4 : ℝ), (4 : ℝ))].getD (2 - 1 + 0) 0) +
        rampWeight 1 0 • ([((2 : ℝ), (2 : ℝ))].getD 0 0)) ∧
    (min (([((0 : ℝ), (0 : ℝ)), ((4 : ℝ), (4 : ℝ))].getD (2 - 1 + 0) 0)).1 (([((2 : ℝ), (2 : ℝ))].getD 0 0)).1 ≤
        ((blendTail 2 1 [((0 : ℝ), (0 : ℝ)), ((4 : ℝ), (4 : ℝ))] [((2 : ℝ), (2 : ℝ))]).getD (2 - 1 + 0) 0).1 ∧
      ((blendTail 2 1 [((0 : ℝ), (0 : ℝ)), ((4 : ℝ), (4 : ℝ))] [((2 : ℝ), (2 : ℝ))]).getD (2 - 1 + 0) 0).1 ≤
        max (([((0 : ℝ), (0 : ℝ)), ((4 : ℝ), (4 : ℝ))].getD (2 - 1 + 0) 0)).1 (([((2 : ℝ), (2 : ℝ))].getD 0 0)).1 ∧
      min (([((0 : ℝ), (0 : ℝ)), ((4 : ℝ), (4 : ℝ))].getD (2 - 1 + 0) 0)).2 (([((2 : ℝ), (2 : ℝ))].getD 0 0)).2 ≤
        ((blendTail 2 1 [((0 : ℝ), (0 : ℝ)), ((4 : ℝ), (4 : ℝ))] [((2 : ℝ), (2 : ℝ))]).getD (2 - 1 + 0) 0).2 ∧
      ((blendTail 2 1 [((0 : ℝ), (0 : ℝ)), ((4 : ℝ), (4 : ℝ))] [((2 : ℝ), (2 : ℝ))]).getD (2 - 1 + 0) 0).2 ≤
        max (([((0 : ℝ), (0 : ℝ)), ((4 : ℝ), (4 : ℝ))].getD (2 - 1 + 0) 0)).2 (([((2 : ℝ), (2 : ℝ))].getD 0 0)).2) ∧
    (∀ j1 j2 : ℕ, j1 < j2 → j2 < 1 → rampWeight 1 j1 < rampWeight 1 j2) ∧
    (∀ (meter : List Frame → ℝ) (t g : ℝ) (bc : ℕ) (audio : List Frame)
        (s : List Frame × List Frame),
      stepBlock meter t g 2 1 bc audio s 0 =
        (s.1, gainCorrect (meter (subFor audio 2 1 bc 0)) t g (subFor audio 2 1 bc 0))) :=
  crossfade_blend 2 1 [((0 : ℝ), (0 : ℝ)), ((4 : ℝ), (4 : ℝ))] [((2 : ℝ), (2 : ℝ))] 0
    (by norm_num) (by norm_num) (by norm_num)

/-- Shared helper: gain correction does not change the sample count. -/
theorem gainCorrect_length (m t g : ℝ) (sub : List Frame) :
    (gainCorrect m t g sub).length = sub.length := by
  unfold gainCorrect normalize_loudness
  rw [List.length_map]

/-- Shared helper: blending into the tail of a block of exactly blocksize
samples keeps its length. -/
theorem blendTail_length (bs fs : ℕ) (prev cur : List Frame)
    (hfs : fs ≤ bs) (hp : prev.length = bs) :
    (blendTail bs fs prev cur).length = bs := by
  unfold blendTail
  simp only [List.length_append, List.length_take, List.length_map, List.length_range,
    List.length_drop, hp]
  omega

/-- Shared helper: the length of the slice taken for each block index. -/
theorem subFor_length (audio : List Frame) (bs fs idx : ℕ)
    (hbs : 0 < bs) (hfs : fs < bs) (hlen : bs ≤ audio.length)
    (hidx : idx < block_count audio.length bs) :
    (subFor audio bs fs (block_count audio.length bs) idx).length =
      if idx = block_count audio.length bs - 1 then audio.length - (idx * bs - fs)
      else if idx = 0 then bs else bs + fs := by
  have hmul : block_count audio.length bs * bs ≤ audio.length := Nat.div_mul_le_self _ _
  have hidx1 : (idx + 1) * bs ≤ block_count audio.length bs * bs :=
    Nat.mul_le_mul_right bs hidx
  unfold subFor
  split_ifs with hlast h0
  · rw [List.length_drop]
  · subst h0
    simp only [Nat.zero_mul, Nat.zero_sub, Nat.zero_add, List.drop_zero, List.length_take,
      Nat.sub_zero]
    omega
  · have hfsi : fs ≤ idx * bs := by
      have h1 : 1 ≤ idx := Nat.one_le_iff_ne_zero.mpr h0
      calc fs ≤ bs := le_of_lt hfs
        _ = 1 * bs := (Nat.one_mul bs).symm
        _ ≤ idx * bs := Nat.mul_le_mul_right bs h1
    rw [List.length_take, List.length_drop]
    have hexp : (idx + 1) * bs = idx * bs + bs := by ring
    omega


/-- Shared helper: the loop invariant of a phase pass.  After i of the bc
iterations the output so far holds i - 1 complete blocks and the held block
has exactly blocksize samples, except after the final iteration, where the
held block carries the whole remainder of the buffer. -/
theorem phase_loop_invariant (meter : List Frame → ℝ) (t g : ℝ) (bs fs : ℕ)
    (audio : List Frame) (hbs : 0 < bs) (hfs : fs < bs) (hlen : bs ≤ audio.length) :
    ∀ i, 1 ≤ i → i ≤ block_count audio.length bs →
      (((List.range i).foldl
          (stepBlock meter t g bs fs (block_count audio.length bs) audio) ([], [])).1.length
        = (i - 1) * bs) ∧
      (((List.range i).foldl
          (stepBlock meter t g bs fs (block_count audio.length bs) audio) ([], [])).2.length
        = if i = block_count audio.length bs
          then audio.length - (block_count audio.length bs - 1) * bs
          else bs) := by
  intro i
  induction i with
  | zero => intro h1 _; exact absurd h1 (by omega)
  | succ n ih =>
    intro _ hbc
    rw [List.range_succ, List.foldl_append, List.foldl_cons, List.foldl_nil]
    rcases Nat.eq_zero_or_pos n with hn0 | hn1
    · subst hn0
      simp only [List.range_zero, List.foldl_nil]
      have hsub := subFor_length audio bs fs 0 hbs hfs hlen (by omega)
      constructor
      · simp [stepBlock]
      · have hstep : stepBlock meter t g bs fs (block_count audio.length bs) audio ([], []) 0
            = ([], gainCorrect (meter (subFor audio bs fs (block_count audio.length bs) 0)) t g
                (subFor audio bs fs (block_count audio.length bs) 0)) := by
          simp [stepBlock]
        rw [hstep]
        show (gainCorrect _ t g _).length = _
        rw [gainCorrect_length, hsub]
        by_cases hone : block_count audio.length bs = 1
        · rw [if_pos (by omega), if_pos (by omega), hone]
          omega
        · rw [if_neg (by omega), if_pos rfl, if_neg (by omega)]
    · have hnlt : n < block_count audio.length bs := by omega
      have ihv := ih (by omega) (by omega)
      have hprev : (((List.range n).foldl
          (stepBlock meter t g bs fs (block_count audio.length bs) audio) ([], [])).2).length
          = bs := by
        rw [ihv.2, if_neg (by omega)]
      have hbsn : bs ≤ n * bs := by
        calc bs = 1 * bs := (Nat.one_mul bs).symm
          _ ≤ n * bs := Nat.mul_le_mul_right bs hn1
      have hfsn : fs ≤ n * bs := le_trans (le_of_lt hfs) hbsn
      constructor
      · simp only [stepBlock]
        rw [if_pos hn1]
        show (_ ++ blendTail _ _ _ _).length = _
        rw [List.length_append, ihv.1, blendTail_length bs fs _ _ (le_of_lt hfs) hprev]
        have h1 : (n - 1) * bs = n * bs - bs := Nat.sub_one_mul n bs
        have h2 : (n + 1 - 1) * bs = n * bs := by rw [Nat.add_sub_cancel]
        omega
      · simp only [stepBlock]
        rw [if_pos hn1]
        show ((gainCorrect _ t g _).drop fs).length = _
        rw [List.length_drop, gainCorrect_length,
          subFor_length audio bs fs n hbs hfs hlen hnlt]
        by_cases hl : n = block_count audio.length bs - 1
        · rw [if_pos hl, if_pos (by omega), ← hl]
          have hKeq : ∀ K, fs ≤ K → audio.length - (K - fs) - fs = audio.length - K := by
            intro K hK
            omega
          exact hKeq (n * bs) hfsn
        · rw [if_neg hl, if_neg (by omega), if_neg (by omega)]
          omega

/-- Shared helper: a phase pass over a buffer of at least one block returns
exactly as many samples as it got. -/
theorem phaseRun_length (meter : List Frame → ℝ) (t g : ℝ) (bs fs : ℕ)
    (audio : List Frame) (hbs : 0 < bs) (hfs : fs < bs) (hlen : bs ≤ audio.length) :
    (phaseRun meter t g bs fs audio).length = audio.length := by
  have hbc : 1 ≤ block_count audio.length bs := (Nat.one_le_div_iff hbs).mpr hlen
  have h := phase_loop_invariant meter t g bs fs audio hbs hfs hlen
    (block_count audio.length bs) hbc le_rfl
  simp only [phaseRun]
  rw [List.length_append, h.1, h.2, if_pos rfl]
  have hmul : block_count audio.length bs * bs ≤ audio.length := Nat.div_mul_le_self _ _
  have hsub : (block_count audio.length bs - 1) * bs
      = block_count audio.length bs * bs - bs := Nat.sub_one_mul _ _
  omega

/-- C4 counterexample: a buffer shorter than a single block comes out empty.
One frame with block size two (an even division of two seconds at samplerate
one), fade size one, gives block count zero and the pass returns no samples
at all, so the output length differs from the input length. -/
theorem phaseRun_short_buffer_empty :
    (phaseRun (fun _ => -16) (-16) 2 2 1 [((1 : ℝ), (1 : ℝ))]).length ≠
      ([((1 : ℝ), (1 : ℝ))] : List Frame).length := by
  simp [phaseRun, block_count]

/-- C4 amended: whenever the buffer holds at least one full block of
samples, the stitched output of a single phase pass has exactly the same
sample count as its input, for every meter, target, max gain, block size
and fade size below block size; a buffer shorter than one block instead
produces an empty output. -/
theorem phase_length_invariance (meter : List Frame → ℝ) (t g : ℝ) (bs fs : ℕ)
    (audio : List Frame) (hbs : 0 < bs) (hfs : fs < bs) (hlen : bs ≤ audio.length) :
    (phaseRun meter t g bs fs audio).length = audio.length :=
  phaseRun_length meter t g bs fs audio hbs hfs hlen

/-- Witness for the amended C4 statement: a two-frame buffer with block
size two and fade size one keeps its two samples. -/
theorem phase_length_invariance_witness :
    (phaseRun (fun _ => -16) (-16) 2 2 1 [((1 : ℝ), (1 : ℝ)), ((0 : ℝ), (0 : ℝ))]).length =
      ([((1 : ℝ), (1 : ℝ)), ((0 : ℝ), (0 : ℝ))] : List Frame).length :=
  phase_length_invariance (fun _ => -16) (-16) 2 2 1 _ (by norm_num) (by norm_num)
    (by norm_num)

/-- Shared helper: folding two functions that agree on every list element
gives the same result. -/
theorem foldl_congr_mem {α β : Type} (f h : α → β → α) :
    ∀ (l : List β) (a : α), (∀ b ∈ l, ∀ x, f x b = h x b) →
      l.foldl f a = l.foldl h a := by
  intro l
  induction l with
  | nil => intro a _; rfl
  | cons b l ihl =>
    intro a hb
    rw [List.foldl_cons, List.foldl_cons, hb b (List.mem_cons_self b l)]
    exact ihl _ (fun c hc x => hb c (List.mem_cons_of_mem b hc) x)

/-- C10: with the same meter, target loudness, block size and fade size,
whenever the measured gap of every block the loop visits stays strictly
below the max gain (so the clamp of the refined variant never fires) and
phase two is disabled, the stitched pre-normalization buffer of the refined
variant equals that of the simple variant sample for sample. -/
theorem refined_eq_simple (meter : List Frame → ℝ) (t g : ℝ) (bs fs : ℕ)
    (audio : List Frame)
    (hgap : ∀ idx < block_count audio.length bs,
      |t - meter (subFor audio bs fs (block_count audio.length bs) idx)| < g) :
    phaseRun meter t g bs fs audio = blockLoop2 meter t bs fs audio := by
  simp only [phaseRun, blockLoop2]
  rw [foldl_congr_mem _ _ (List.range (block_count audio.length bs)) ([], []) ?_]
  intro idx hidx s
  have hm := hgap idx (List.mem_range.mp hidx)
  have hsub : subFor2 audio bs fs (block_count audio.length bs) idx
      = subFor audio bs fs (block_count audio.length bs) idx := rfl
  simp only [stepBlock, stepBlock2, hsub]
  have hcorr : gainCorrect (meter (subFor audio bs fs (block_count audio.length bs) idx)) t g
      (subFor audio bs fs (block_count audio.length bs) idx)
      = gainCorrect2 (meter (subFor audio bs fs (block_count audio.length bs) idx)) t
        (subFor audio bs fs (block_count audio.length bs) idx) := by
    simp only [gainCorrect, gainCorrect2, clamped_loudness]
    rw [if_neg (not_lt.mpr (le_of_lt hm))]
  rw [hcorr]

/-- Witness for C10: a two-frame buffer, one block, meter reading exactly
the target so the gap is zero and below the max gain of one. -/
theorem refined_eq_simple_witness :
    phaseRun (fun _ => -16) (-16) 1 2 1 [((1 : ℝ), (1 : ℝ)), ((0 : ℝ), (0 : ℝ))] =
      blockLoop2 (fun _ => -16) (-16) 2 1 [((1 : ℝ), (1 : ℝ)), ((0 : ℝ), (0 : ℝ))] :=
  refined_eq_simple (fun _ => -16) (-16) 1 2 1 _ (by intro idx _; norm_num)

/-- Shared helper: when the buffer holds at least one block, the first
phase-two iteration overwrites the carried held block before reading it, so
the phase-two pass does not depend on that value and equals a fresh phase
pass over the same buffer. -/
theorem phase2Run_eq_phaseRun (meter : List Frame → ℝ) (t g : ℝ) (bs fs : ℕ)
    (prev0 audio : List Frame) (h : 1 ≤ block_count audio.length bs) :
    phase2Run meter t g bs fs prev0 audio = phaseRun meter t g bs fs audio := by
  simp only [phase2Run, phaseRun, show phase2Step = stepBlock from rfl]
  obtain ⟨k, hk⟩ : ∃ k, block_count audio.length bs = k + 1 :=
    ⟨block_count audio.length bs - 1, by omega⟩
  rw [hk, List.range_succ_eq_map, List.foldl_cons, List.foldl_cons,
    show stepBlock meter t g bs fs (k + 1) audio ([], prev0) 0
      = stepBlock meter t g bs fs (k + 1) audio ([], []) 0 from by simp [stepBlock]]

/-- Shared helper: when the buffer is shorter than one block, the phase-two
loop never runs and the pass returns the carried stale held block
unchanged (dyn_adapt4.py line 281 appends the never-reassigned prev_audio). -/
theorem phase2Run_stale (meter : List Frame → ℝ) (t g : ℝ) (bs fs : ℕ)
    (prev0 audio : List Frame) (h : block_count audio.length bs = 0) :
    phase2Run meter t g bs fs prev0 audio = prev0 := by
  simp only [phase2Run, h, List.range_zero, List.foldl_nil, List.nil_append]

/-- Shared helper: on a buffer of exactly one block the phase-one loop never
flushes, so its final state has an empty output component and the whole pass
result is the held block. -/
theorem phaseState_one_block (meter : List Frame → ℝ) (t g : ℝ) (bs fs : ℕ)
    (audio : List Frame) (h : block_count audio.length bs = 1) :
    (phaseState meter t g bs fs audio).1 = [] ∧
    phaseRun meter t g bs fs audio = (phaseState meter t g bs fs audio).2 := by
  have hrun : phaseRun meter t g bs fs audio =
      (phaseState meter t g bs fs audio).1 ++ (phaseState meter t g bs fs audio).2 := rfl
  have hst : (phaseState meter t g bs fs audio).1 = [] := by
    simp only [phaseState, h]
    rw [show List.range 1 = [0] from rfl, List.foldl_cons, List.foldl_nil]
    simp [stepBlock]
  exact ⟨hst, by rw [hrun, hst, List.nil_append]⟩

/-- C1 amended: with phase two enabled the second pass runs on the PHASE-ONE
OUTPUT with its first half block removed (not on the raw input buffer), and
the final pre-normalization result is the phase-one output truncated to its
first half block followed by the entire phase-two output.  When the shifted
buffer still holds at least one block, the second pass is an ordinary phase
pass over it; when the buffer is shorter (block size up to but excluding
one and a half blocks of input), the phase-two loop never runs and flushes
the stale held block of phase one, here the whole phase-one output, so the
result is the first half block of phase one followed by all of phase one
again.  In both regimes the final result agrees with phase one on the first
half block, and the phase-one output beyond it is not discarded without
influence. -/
theorem dualPhase_composition (meter : List Frame → ℝ) (t g : ℝ) (bs fs : ℕ)
    (audio : List Frame) (hbs : 0 < bs) (hfs : fs < bs) (hlen : bs ≤ audio.length) :
    (bs + bs / 2 ≤ audio.length →
      dualPhase meter t g bs fs audio =
        (phaseRun meter t g bs fs audio).take (bs / 2) ++
          phaseRun meter t g bs fs ((phaseRun meter t g bs fs audio).drop (bs / 2))) ∧
    (audio.length < bs + bs / 2 →
      dualPhase meter t g bs fs audio =
        (phaseRun meter t g bs fs audio).take (bs / 2) ++ phaseRun meter t g bs fs audio) ∧
    (dualPhase meter t g bs fs audio).take (bs / 2) =
      (phaseRun meter t g bs fs audio).take (bs / 2) := by
  have hlen1 : (phaseRun meter t g bs fs audio).length = audio.length :=
    phaseRun_length meter t g bs fs audio hbs hfs hlen
  refine ⟨?_, ?_, ?_⟩
  · intro hreg
    have hbc2 : 1 ≤ block_count ((phaseRun meter t g bs fs audio).drop (bs / 2)).length bs := by
      rw [List.length_drop, hlen1]
      exact (Nat.one_le_div_iff hbs).mpr (by omega)
    simp only [dualPhase]
    rw [phase2Run_eq_phaseRun meter t g bs fs _ _ hbc2]
  · intro hdeg
    have hbc1 : block_count audio.length bs = 1 := by
      have h1 : 1 ≤ audio.length / bs := (Nat.one_le_div_iff hbs).mpr hlen
      have h2 : audio.length / bs < 2 := by
        rw [Nat.div_lt_iff_lt_mul hbs]
        have hhalf : bs / 2 ≤ bs := Nat.div_le_self bs 2
        omega
      unfold block_count
      omega
    have hone := phaseState_one_block meter t g bs fs audio hbc1
    have hbc2 : block_count ((phaseRun meter t g bs fs audio).drop (bs / 2)).length bs = 0 := by
      rw [List.length_drop, hlen1]
      exact Nat.div_eq_of_lt (by omega)
    simp only [dualPhase]
    rw [phase2Run_stale meter t g bs fs _ _ hbc2, hone.2]
  · simp only [dualPhase]
    rw [List.take_append_eq_append_take, List.take_take, min_self]
    have hl1 : ((phaseRun meter t g bs fs audio).take (bs / 2)).length = bs / 2 := by
      rw [List.length_take, hlen1]
      have hhalf : bs / 2 ≤ bs := Nat.div_le_self bs 2
      omega
    rw [hl1, Nat.sub_self, List.take_zero, List.append_nil]

/-- Witness for the amended C1 statement on a four-frame buffer with block
size two and fade size one (the shifted buffer keeps a full block, so the
first regime applies and the second holds vacuously). -/
theorem dualPhase_composition_witness :
    (2 + 2 / 2 ≤ ([((1 : ℝ), (1 : ℝ)), ((1 : ℝ), (1 : ℝ)), ((1 : ℝ), (1 : ℝ)),
        ((1 : ℝ), (1 : ℝ))] : List Frame).length →
      dualPhase (fun _ => -36) (-16) 20 2 1
          [((1 : ℝ), (1 : ℝ)), ((1 : ℝ), (1 : ℝ)), ((1 : ℝ), (1 : ℝ)), ((1 : ℝ), (1 : ℝ))] =
        (phaseRun (fun _ => -36) (-16) 20 2 1
            [((1 : ℝ), (1 : ℝ)), ((1 : ℝ), (1 : ℝ)), ((1 : ℝ), (1 : ℝ)), ((1 : ℝ), (1 : ℝ))]).take (2 / 2) ++
          phaseRun (fun _ => -36) (-16) 20 2 1
            ((phaseRun (fun _ => -36) (-16) 20 2 1
              [((1 : ℝ), (1 : ℝ)), ((1 : ℝ), (1 : ℝ)), ((1 : ℝ), (1 : ℝ)), ((1 : ℝ), (1 : ℝ))]).drop (2 / 2))) ∧
    (([((1 : ℝ), (1 : ℝ)), ((1 : ℝ), (1 : ℝ)), ((1 : ℝ), (1 : ℝ)),
        ((1 : ℝ), (1 : ℝ))] : List Frame).length < 2 + 2 / 2 →
      dualPhase (fun _ => -36) (-16) 20 2 1
          [((1 : ℝ), (1 : ℝ)), ((1 : ℝ), (1 : ℝ)), ((1 : ℝ), (1 : ℝ)), ((1 : ℝ), (1 : ℝ))] =
        (phaseRun (fun _ => -36) (-16) 20 2 1
            [((1 : ℝ), (1 : ℝ)), ((1 : ℝ), (1 : ℝ)), ((1 : ℝ), (1 : ℝ)), ((1 : ℝ), (1 : ℝ))]).take (2 / 2) ++
          phaseRun (fun _ => -36) (-16) 20 2 1
            [((1 : ℝ), (1 : ℝ)), ((1 : ℝ), (1 : ℝ)), ((1 : ℝ), (1 : ℝ)), ((1 : ℝ), (1 : ℝ))]) ∧
    (dualPhase (fun _ => -36) (-16) 20 2 1
        [((1 : ℝ), (1 : ℝ)), ((1 : ℝ), (1 : ℝ)), ((1 : ℝ), (1 : ℝ)), ((1 : ℝ), (1 : ℝ))]).take (2 / 2) =
      (phaseRun (fun _ => -36) (-16) 20 2 1
          [((1 : ℝ), (1 : ℝ)), ((1 : ℝ), (1 : ℝ)), ((1 : ℝ), (1 : ℝ)), ((1 : ℝ), (1 : ℝ))]).take (2 / 2) :=
  dualPhase_composition (fun _ => -36) (-16) 20 2 1 _ (by norm_num) (by norm_num) (by norm_num)

/-- C1 counterexample: a four-frame buffer of amplitude-one samples, block
size two, fade size one, target -16 LUFS, max gain 20 dB and a meter that
reads -36 LUFS on every block, so that every block receives +20 dB (a
factor of ten).  Phase two re-amplifies the already amplified phase-one
output, ending at a factor of one hundred beyond the first half block; had
phase two run on the raw input, as the claim states, the factor would stay
ten throughout — so the final buffer differs from the composition the claim
describes, and the tail of the phase-one output does influence the result. -/
theorem dualPhase_not_on_raw_input :
    dualPhase (fun _ => -36) (-16) 20 2 1
      [((1 : ℝ), (0 : ℝ)), ((1 : ℝ), (0 : ℝ)), ((1 : ℝ), (0 : ℝ)), ((1 : ℝ), (0 : ℝ))] ≠
    (phaseRun (fun _ => -36) (-16) 20 2 1
      [((1 : ℝ), (0 : ℝ)), ((1 : ℝ), (0 : ℝ)), ((1 : ℝ), (0 : ℝ)), ((1 : ℝ), (0 : ℝ))]).take (2 / 2) ++
    phaseRun (fun _ => -36) (-16) 20 2 1
      (([((1 : ℝ), (0 : ℝ)), ((1 : ℝ), (0 : ℝ)), ((1 : ℝ), (0 : ℝ)),
        ((1 : ℝ), (0 : ℝ))] : List Frame).drop (2 / 2)) := by
  have hcl : clamped_loudness (-36) (-16) 20 = -36 := by
    unfold clamped_loudness
    rw [if_neg (by norm_num)]
  have hcorr : ∀ sub : List Frame, gainCorrect (-36) (-16) 20 sub
      = sub.map (fun s => (10 : ℝ) • s) := by
    intro sub
    unfold gainCorrect normalize_loudness
    rw [hcl]
    simp only [show ((-16 : ℝ) - (-36)) / 20 = 1 by norm_num, Real.rpow_one]
  have hp1 : phaseRun (fun _ => -36) (-16) 20 2 1
      [((1 : ℝ), (0 : ℝ)), ((1 : ℝ), (0 : ℝ)), ((1 : ℝ), (0 : ℝ)), ((1 : ℝ), (0 : ℝ))] =
      [((10 : ℝ), (0 : ℝ)), ((10 : ℝ), (0 : ℝ)), ((10 : ℝ), (0 : ℝ)), ((10 : ℝ), (0 : ℝ))] := by
    simp only [phaseRun, block_count, List.length_cons, List.length_nil]
    rw [show (3 + 1 : ℕ) / 2 = 2 from rfl, show List.range 2 = [0, 1] from rfl,
      List.foldl_cons, List.foldl_cons, List.foldl_nil]
    simp only [stepBlock, subFor, hcorr]
    norm_num [blendTail, rampWeight, show List.range 1 = [0] from rfl, Prod.smul_mk, smul_eq_mul,
      List.getElem?_cons_zero, List.getElem?_cons_succ, one_smul, zero_smul, add_zero]
  have hsingle : ∀ a b c : Frame, phaseRun (fun _ => -36) (-16) 20 2 1 [a, b, c] =
      [(10 : ℝ) • a, (10 : ℝ) • b, (10 : ℝ) • c] := by
    intro a b c
    simp only [phaseRun, block_count, List.length_cons, List.length_nil]
    rw [show (2 + 1 : ℕ) / 2 = 1 from rfl, show List.range 1 = [0] from rfl,
      List.foldl_cons, List.foldl_nil]
    simp only [stepBlock, subFor, hcorr]
    norm_num
  have h2 : phase2Run (fun _ => -36) (-16) 20 2 1
      (phaseState (fun _ => -36) (-16) 20 2 1
        [((1 : ℝ), (0 : ℝ)), ((1 : ℝ), (0 : ℝ)), ((1 : ℝ), (0 : ℝ)), ((1 : ℝ), (0 : ℝ))]).2
      [((10 : ℝ), (0 : ℝ)), ((10 : ℝ), (0 : ℝ)), ((10 : ℝ), (0 : ℝ))] =
      phaseRun (fun _ => -36) (-16) 20 2 1
        [((10 : ℝ), (0 : ℝ)), ((10 : ℝ), (0 : ℝ)), ((10 : ℝ), (0 : ℝ))] :=
    phase2Run_eq_phaseRun _ _ _ _ _ _ _ (by norm_num [block_count])
  simp only [dualPhase, hp1]
  rw [show (2 / 2 : ℕ) = 1 from rfl,
    show ([((10 : ℝ), (0 : ℝ)), ((10 : ℝ), (0 : ℝ)), ((10 : ℝ), (0 : ℝ)),
        ((10 : ℝ), (0 : ℝ))] : List Frame).drop 1
      = [((10 : ℝ), (0 : ℝ)), ((10 : ℝ), (0 : ℝ)), ((10 : ℝ), (0 : ℝ))] from rfl,
    show (([((1 : ℝ), (0 : ℝ)), ((1 : ℝ), (0 : ℝ)), ((1 : ℝ), (0 : ℝ)),
        ((1 : ℝ), (0 : ℝ))] : List Frame)).drop 1
      = [((1 : ℝ), (0 : ℝ)), ((1 : ℝ), (0 : ℝ)), ((1 : ℝ), (0 : ℝ))] from rfl,
    h2, hsingle, hsingle]
  norm_num [Prod.smul_mk]
